import Mathlib

/-!
Verification of the interleave-set matching engine of
`src/DcpmemPkg/driver/Utils/Interleave.c`.

The C code is shallowly embedded: DIMM pointer arrays with an explicit count
become Lean lists (a pointer is modelled by the opaque `DimmID` tag, so
pointer-identity comparison becomes decidable equality on `DIMM`), nullable
pointer parameters become `Option` arguments, `UINT32` / `UINT64` arithmetic
becomes `Nat` arithmetic with explicit `% 2 ^ 32` / `% 2 ^ 64` where the C
types can wrap, and the unbounded `while` loop of
`PerformInterleavingAndCreateGoal` becomes a fuel-indexed recursion returning
`none` on fuel exhaustion (the code starts the loop with
`RemainingDimms = DimmsNum`, so `DimmsNum` is the fuel at the call site;
termination is proved below as `performLoop` never returning `none` there).
-/

namespace Interleave

/-- The fields of the externally owned `DIMM` structure that `Interleave.c`
reads: the memory-controller id and the channel id.  `DimmID` stands for the
pointer identity of the DIMM object (two distinct DIMM objects carry distinct
tags); the code compares DIMMs only by pointer identity. -/
structure DIMM where
  DimmID : Nat
  ImcId : Nat
  ChannelId : Nat
  deriving DecidableEq, Repr

/-- The EFI status codes returned by the functions of `Interleave.c`. -/
inductive EfiStatus where
  | Success
  | InvalidParameter
  | Aborted
  | BadBufferSize
  | OutOfResources
  deriving DecidableEq, Repr

/-- `#define CHANNELS_PER_IMC 3`. -/
def CHANNELS_PER_IMC : Nat := 3

/-- `#define DIMM_LOCATION(iMC, channel) (2 * (channel % CHANNELS_PER_IMC) + iMC)`. -/
def DIMM_LOCATION (iMC channel : Nat) : Nat := 2 * (channel % CHANNELS_PER_IMC) + iMC

/-- `#define DIMM_POPULATED(map, dimmIndex) ((map >> dimmIndex) & 0x1)`. -/
def DIMM_POPULATED (map dimmIndex : Nat) : Nat := (map >>> dimmIndex) &&& 1

/-- `#define CLEAR_DIMM(map, dimmIndex) map &= ~(0x1 << dimmIndex)` on a
`UINT32` map: the complement of the one-bit mask is taken in 32 bits. -/
def CLEAR_DIMM (map dimmIndex : Nat) : Nat :=
  map &&& ((2 ^ 32 - 1) ^^^ ((1 <<< dimmIndex) % 2 ^ 32))

/-- `#define END_OF_INTERLEAVE_SETS 0`. -/
def END_OF_INTERLEAVE_SETS : Nat := 0

/-- `const UINT32 INTERLEAVE_SETS[]`, the sentinel-terminated priority table. -/
def INTERLEAVE_SETS : List Nat :=
  [0x3F,
   0x0F, 0x3C, 0x33,
   0x15, 0x2A,
   0x03, 0x0C, 0x30,
   0x05, 0x0A, 0x14, 0x28, 0x11, 0x22,
   0x01, 0x02, 0x04, 0x08, 0x10, 0x20,
   END_OF_INTERLEAVE_SETS]

/-- The slot index of a DIMM, `DIMM_LOCATION(pDimm->ImcId, pDimm->ChannelId)`. -/
def dimmLoc (d : DIMM) : Nat := DIMM_LOCATION d.ImcId d.ChannelId

/-- The find-and-shift-left body of `RemoveDimmFromList`: the first list entry
equal (by pointer identity) to `pDimm` is removed, later entries shift left by
one and the count drops by one; if no entry matches, nothing changes. -/
def removeDimmCore : List DIMM → DIMM → List DIMM
  | [], _ => []
  | x :: xs, d => if d = x then xs else x :: removeDimmCore xs d

/-- `RemoveDimmFromList(pDimmsList, pDimmsListNum, pDimm)`.  The array pointer
and the count pointer describe one list value, so the pair is modelled as
`Option (List DIMM)` for the array pointer plus `Option Unit` recording
whether the count pointer is null.  Returns the status and the list left in
place (unchanged whenever any argument is null). -/
def RemoveDimmFromList (pDimmsList : Option (List DIMM)) (pDimmsListNum : Option Unit)
    (pDimm : Option DIMM) : EfiStatus × Option (List DIMM) :=
  match pDimmsList, pDimmsListNum, pDimm with
  | some l, some _, some d => (EfiStatus.Success, some (removeDimmCore l d))
  | _, _, _ => (EfiStatus.InvalidParameter, pDimmsList)

/-- The loop body of `RemoveDimmArrayFromList`: one `RemoveDimmFromList` per
array element, in array order. -/
def removeDimmArrayCore (pDimmsList : List DIMM) (pDimmsArray : List DIMM) : List DIMM :=
  pDimmsArray.foldl removeDimmCore pDimmsList

/-- `RemoveDimmArrayFromList(pDimmsList, pDimmsListNum, pDimmsArray,
DimmsArrayNum)`; the array argument carries its own length. -/
def RemoveDimmArrayFromList (pDimmsList : Option (List DIMM)) (pDimmsListNum : Option Unit)
    (pDimmsArray : Option (List DIMM)) : EfiStatus × Option (List DIMM) :=
  match pDimmsList, pDimmsListNum, pDimmsArray with
  | some l, some _, some ds => (EfiStatus.Success, some (removeDimmArrayCore l ds))
  | _, _, _ => (EfiStatus.InvalidParameter, pDimmsList)

/-- The scan loop of `GetDimmsFromListMatchingInterleaveSet`: walk the DIMM
list; every DIMM whose slot bit is set in `InterleaveMap` is appended to the
output buffer and its bit is cleared in the running `DimmsNotFound` map.
Returns the output buffer and the final `DimmsNotFound`. -/
def getDimmsScan (map : Nat) : List DIMM → Nat → List DIMM × Nat
  | [], notFound => ([], notFound)
  | d :: ds, notFound =>
    if DIMM_POPULATED map (dimmLoc d) = 1 then
      let r := getDimmsScan map ds (CLEAR_DIMM notFound (dimmLoc d))
      (d :: r.1, r.2)
    else getDimmsScan map ds notFound

/-- `GetDimmsFromListMatchingInterleaveSet(pDimms, DimmsNum, InterleaveMap,
pDimmsInterleaved, pDimmsUsed)` as invoked by `FindBestInterleavingForDimms`
(`*pDimmsUsed` enters as `0`): returns the output buffer and the final
`*pDimmsUsed`, which is reset to `0` when `DimmsNotFound` is nonzero after
the scan. -/
def GetDimmsFromListMatchingInterleaveSet (pDimms : List DIMM) (InterleaveMap : Nat) :
    List DIMM × Nat :=
  if (getDimmsScan InterleaveMap pDimms InterleaveMap).2 ≠ 0 then
    ((getDimmsScan InterleaveMap pDimms InterleaveMap).1, 0)
  else
    ((getDimmsScan InterleaveMap pDimms InterleaveMap).1,
      (getDimmsScan InterleaveMap pDimms InterleaveMap).1.length)

/-- The table walk of `FindBestInterleavingForDimms`: try entries while
`*pDimmsUsed == 0` and the sentinel is not reached; report `EFI_ABORTED`
when the walk ends with `*pDimmsUsed == 0`. -/
def findBestAux (pDimms : List DIMM) : List Nat → EfiStatus × List DIMM
  | [] => (EfiStatus.Aborted, [])
  | p :: ps =>
    if p = END_OF_INTERLEAVE_SETS then (EfiStatus.Aborted, [])
    else if (GetDimmsFromListMatchingInterleaveSet pDimms p).2 ≠ 0 then
      (EfiStatus.Success, (GetDimmsFromListMatchingInterleaveSet pDimms p).1)
    else findBestAux pDimms ps

/-- `FindBestInterleavingForDimms(pDimms, DimmsNum, pDimmsInterleaved,
pDimmsUsed)`: the table walk over `INTERLEAVE_SETS`. -/
def FindBestInterleavingForDimms (pDimms : List DIMM) : EfiStatus × List DIMM :=
  findBestAux pDimms INTERLEAVE_SETS

/-- The region-goal descriptor for one interleaved group, with the fields this
engine passes to the collaborator: the DIMM subset, its count, the allocated
capacity share, and the sequence tag. -/
structure RegionGoal where
  pDimms : List DIMM
  DimmsNum : Nat
  Size : Nat
  SequenceIndex : Nat
  deriving DecidableEq, Repr

/-- Modelled from the spec: `CreateRegionGoal` lives in the region module,
which is outside this file; per the spec it is an external collaborator that
materializes one goal descriptor from the group, its size share and the
sequence tag (its resource-exhaustion failure mode is out of scope here, so
the model is total). -/
def CreateRegionGoal (pDimms : List DIMM) (DimmsNum Size SequenceIndex : Nat) : RegionGoal :=
  { pDimms := pDimms, DimmsNum := DimmsNum, Size := Size, SequenceIndex := SequenceIndex }

/-- The modulus of `UINT64` arithmetic. -/
def UINT64_MOD : Nat := 2 ^ 64

/-- The `while (RemainingDimms > 0)` loop of
`PerformInterleavingAndCreateGoal`, with explicit fuel (the caller passes
`DimmsNum`, an upper bound proved sufficient below).  Each iteration finds the
best group, removes it from the working list, accumulates the running total
with the defensive `EFI_BAD_BUFFER_SIZE` check, and appends one goal whose
size share is `InterleaveSetSize * DimmsUsed / DimmsNum` in `UINT64`
arithmetic. -/
def performLoop (DimmsNum InterleaveSetSize SequenceIndex : Nat) :
    Nat → List DIMM → Nat → List RegionGoal → Option (EfiStatus × List RegionGoal)
  | _, [], _, goals => some (EfiStatus.Success, goals)
  | 0, _ :: _, _, _ => none
  | fuel + 1, d :: ds, TotalDimmsUsed, goals =>
    if (FindBestInterleavingForDimms (d :: ds)).1 ≠ EfiStatus.Success then
      some ((FindBestInterleavingForDimms (d :: ds)).1, goals)
    else if TotalDimmsUsed + (FindBestInterleavingForDimms (d :: ds)).2.length > DimmsNum then
      some (EfiStatus.BadBufferSize, goals)
    else
      performLoop DimmsNum InterleaveSetSize SequenceIndex fuel
        (removeDimmArrayCore (d :: ds) (FindBestInterleavingForDimms (d :: ds)).2)
        (TotalDimmsUsed + (FindBestInterleavingForDimms (d :: ds)).2.length)
        (goals ++ [CreateRegionGoal (FindBestInterleavingForDimms (d :: ds)).2
          (FindBestInterleavingForDimms (d :: ds)).2.length
          (InterleaveSetSize * (FindBestInterleavingForDimms (d :: ds)).2.length % UINT64_MOD /
            DimmsNum) SequenceIndex])

/-- `PerformInterleavingAndCreateGoal` with the non-null pointer arguments the
caller must supply: the input DIMM list (array plus matching count, so
`DimmsNum = pDimms.length`), the requested size and the sequence index.  The
result is the status together with the list of goals appended to the caller's
output array (`*pNewRegionsGoalNum` grows by its length); `none` marks fuel
exhaustion of the loop model, which never occurs. -/
def PerformInterleavingAndCreateGoal (pDimms : List DIMM)
    (InterleaveSetSize SequenceIndex : Nat) : Option (EfiStatus × List RegionGoal) :=
  if InterleaveSetSize = 0 then some (EfiStatus.Success, [])
  else performLoop pDimms.length InterleaveSetSize SequenceIndex pDimms.length pDimms 0 []

/-- Specification-side predicate: every slot bit set in `map` (a `UINT32`
bitmap, so bits live below 32) is occupied by some DIMM of the list. -/
def covers (pDimms : List DIMM) (map : Nat) : Prop :=
  ∀ i, i < 32 → map.testBit i = true → ∃ d ∈ pDimms, dimmLoc d = i

instance coversDecidable (pDimms : List DIMM) (map : Nat) : Decidable (covers pDimms map) :=
  inferInstanceAs (Decidable (∀ i, i < 32 → map.testBit i = true → ∃ d ∈ pDimms, dimmLoc d = i))

/-- Specification-side predicate: the occupied slots of the population satisfy
no (non-sentinel) entry of the priority table. -/
def noTableMatch (pDimms : List DIMM) : Prop :=
  ∀ p ∈ INTERLEAVE_SETS, p ≠ 0 → ¬ covers pDimms p

instance noTableMatchDecidable (pDimms : List DIMM) : Decidable (noTableMatch pDimms) :=
  inferInstanceAs (Decidable (∀ p ∈ INTERLEAVE_SETS, p ≠ 0 → ¬ covers pDimms p))

/-- Number of slot bits set in a (6-bit) interleave pattern. -/
def bitCount6 (n : Nat) : Nat := ((List.range 6).filter fun i => n.testBit i).length

/-- `DIMM_POPULATED` tests exactly the given bit of the map. -/
lemma DIMM_POPULATED_eq_one_iff (map i : Nat) :
    DIMM_POPULATED map i = 1 ↔ map.testBit i = true := by
  unfold DIMM_POPULATED
  rw [Nat.and_one_is_mod, Nat.shiftRight_eq_div_pow, Nat.testBit_to_div_mod]
  simp

/-- `CLEAR_DIMM` never increases the map. -/
lemma CLEAR_DIMM_le (map j : Nat) : CLEAR_DIMM map j ≤ map := Nat.and_le_left

/-- Bit view of `CLEAR_DIMM` on a 32-bit map: bit `j` is cleared, all other
bits are preserved. -/
lemma testBit_CLEAR_DIMM (m j i : Nat) (hm : m < 2 ^ 32) :
    (CLEAR_DIMM m j).testBit i = (m.testBit i && !decide (i = j)) := by
  unfold CLEAR_DIMM
  rw [Nat.testBit_and, Nat.testBit_xor, Nat.shiftLeft_eq, one_mul]
  by_cases hi : i < 32
  · by_cases hj : j < 32
    · rw [Nat.mod_eq_of_lt (Nat.pow_lt_pow_right (by norm_num) hj), Nat.testBit_two_pow,
        Nat.testBit_two_pow_sub_one]
      by_cases hij : i = j
      · subst hij
        simp [hi]
      · have hji : decide (j = i) = false := by
          simp only [decide_eq_false_iff_not]
          omega
        simp [hi, hji, hij]
    · have hz : (2 ^ j) % 2 ^ 32 = 0 := Nat.mod_eq_zero_of_dvd (Nat.pow_dvd_pow 2 (by omega))
      have hij : i ≠ j := by omega
      rw [hz, Nat.testBit_two_pow_sub_one]
      simp [hi, hij]
  · have h1 : m.testBit i = false :=
      Nat.testBit_eq_false_of_lt (lt_of_lt_of_le hm (Nat.pow_le_pow_right (by norm_num) (by omega)))
    simp [h1]

/-- A natural number is zero exactly when it has no set bit. -/
lemma nat_eq_zero_iff_testBit (n : Nat) : n = 0 ↔ ∀ i, n.testBit i = false := by
  constructor
  · rintro rfl i
    exact Nat.zero_testBit i
  · intro h
    exact Nat.eq_of_testBit_eq fun i => by rw [h i, Nat.zero_testBit]

/-- A nonzero natural number has a set bit. -/
lemma exists_testBit_of_ne_zero {n : Nat} (h : n ≠ 0) : ∃ i, n.testBit i = true := by
  by_contra hc
  push_neg at hc
  exact h ((nat_eq_zero_iff_testBit n).2 fun i => by simpa using hc i)

/-- Set bits of a 32-bit value lie below 32. -/
lemma testBit_lt_32 {n i : Nat} (hn : n < 2 ^ 32) (h : n.testBit i = true) : i < 32 := by
  by_contra hi
  rw [Nat.testBit_eq_false_of_lt
    (lt_of_lt_of_le hn (Nat.pow_le_pow_right (by norm_num) (by omega)))] at h
  exact Bool.false_ne_true h

/-- The output buffer of the scan is the sublist of DIMMs whose slot bit is
set in the pattern. -/
lemma getDimmsScan_fst (map : Nat) (l : List DIMM) : ∀ nf,
    (getDimmsScan map l nf).1 = l.filter fun d => decide (DIMM_POPULATED map (dimmLoc d) = 1) := by
  induction l with
  | nil => intro nf; rfl
  | cons d ds ih =>
    intro nf
    by_cases h : DIMM_POPULATED map (dimmLoc d) = 1 <;> simp [getDimmsScan, h, ih]

/-- Bit view of the final `DimmsNotFound`: a bit survives the scan exactly
when it was set on entry and no listed DIMM matching the pattern sits at that
slot. -/
lemma getDimmsScan_snd_testBit (map : Nat) (l : List DIMM) : ∀ (nf : Nat), nf < 2 ^ 32 → ∀ i,
    ((getDimmsScan map l nf).2.testBit i = true ↔
      (nf.testBit i = true ∧
        ∀ d ∈ l, ¬ (DIMM_POPULATED map (dimmLoc d) = 1 ∧ dimmLoc d = i))) := by
  induction l with
  | nil => intro nf hnf i; simp [getDimmsScan]
  | cons d ds ih =>
    intro nf hnf i
    by_cases h : DIMM_POPULATED map (dimmLoc d) = 1
    · have hc : CLEAR_DIMM nf (dimmLoc d) < 2 ^ 32 := lt_of_le_of_lt (CLEAR_DIMM_le nf _) hnf
      have := ih (CLEAR_DIMM nf (dimmLoc d)) hc i
      rw [testBit_CLEAR_DIMM nf (dimmLoc d) i hnf] at this
      simp only [getDimmsScan, h, if_true]
      rw [this]
      simp only [Bool.and_eq_true, Bool.not_eq_true', decide_eq_false_iff_not, ne_eq,
        List.forall_mem_cons, h, true_and]
      constructor
      · rintro ⟨⟨hb, hne⟩, hall⟩
        exact ⟨hb, fun hcontra => hne hcontra.symm, hall⟩
      · rintro ⟨hb, hhd, hall⟩
        exact ⟨⟨hb, fun hcontra => hhd hcontra.symm⟩, hall⟩
    · simp only [getDimmsScan, h, if_false]
      rw [ih nf hnf i]
      simp only [List.forall_mem_cons, h, false_and, not_false_iff, true_and]

/-- The final `DimmsNotFound` of the scan started at the full pattern is zero
exactly when the list covers every slot bit of the pattern. -/
lemma getDimmsScan_snd_eq_zero_iff (l : List DIMM) (map : Nat) (hm : map < 2 ^ 32) :
    ((getDimmsScan map l map).2 = 0 ↔ covers l map) := by
  rw [nat_eq_zero_iff_testBit]
  constructor
  · intro h i hi hbit
    have hchar := getDimmsScan_snd_testBit map l map hm i
    rw [h i] at hchar
    have h2 : ¬ ∀ d ∈ l, ¬ (DIMM_POPULATED map (dimmLoc d) = 1 ∧ dimmLoc d = i) := by
      intro hall
      exact Bool.false_ne_true (hchar.2 ⟨hbit, hall⟩)
    push_neg at h2
    obtain ⟨d, hd, _, hloc⟩ := h2
    exact ⟨d, hd, hloc⟩
  · intro hcov i
    have hchar := getDimmsScan_snd_testBit map l map hm i
    by_contra hne
    have htrue : (getDimmsScan map l map).2.testBit i = true := by
      cases hb : (getDimmsScan map l map).2.testBit i
      · exact absurd hb hne
      · rfl
    obtain ⟨hbit, hall⟩ := hchar.1 htrue
    obtain ⟨d, hd, hloc⟩ := hcov i (testBit_lt_32 hm hbit) hbit
    have hpop : DIMM_POPULATED map (dimmLoc d) = 1 := by
      rw [hloc]
      exact (DIMM_POPULATED_eq_one_iff map i).2 hbit
    exact hall d hd ⟨hpop, hloc⟩

/-- The matcher's output buffer is the sublist of DIMMs whose slot bit the
pattern names. -/
lemma getDimms_fst_filter (l : List DIMM) (map : Nat) :
    (GetDimmsFromListMatchingInterleaveSet l map).1 =
      l.filter fun d => decide (DIMM_POPULATED map (dimmLoc d) = 1) := by
  unfold GetDimmsFromListMatchingInterleaveSet
  split <;> simp [getDimmsScan_fst]

/-- The matcher's count is `0` or the length of its output buffer. -/
lemma getDimms_snd_cases (l : List DIMM) (map : Nat) :
    (GetDimmsFromListMatchingInterleaveSet l map).2 = 0 ∨
      (GetDimmsFromListMatchingInterleaveSet l map).2 =
        (GetDimmsFromListMatchingInterleaveSet l map).1.length := by
  unfold GetDimmsFromListMatchingInterleaveSet
  split
  · exact Or.inl rfl
  · exact Or.inr rfl

/-- For a nonzero 32-bit pattern, the matcher reports a nonzero count exactly
when the list covers every slot bit of the pattern. -/
lemma getDimms_snd_ne_zero_iff (l : List DIMM) (map : Nat) (h0 : map ≠ 0) (hm : map < 2 ^ 32) :
    (GetDimmsFromListMatchingInterleaveSet l map).2 ≠ 0 ↔ covers l map := by
  unfold GetDimmsFromListMatchingInterleaveSet
  split
  · rename_i hnf
    simp only [ne_eq, not_true_eq_false, false_iff]
    intro hcov
    exact hnf ((getDimmsScan_snd_eq_zero_iff l map hm).2 hcov)
  · rename_i hnf
    rw [not_not] at hnf
    have hcov := (getDimmsScan_snd_eq_zero_iff l map hm).1 hnf
    simp only [hcov, iff_true]
    obtain ⟨i, hbit⟩ := exists_testBit_of_ne_zero h0
    obtain ⟨d, hd, hloc⟩ := hcov i (testBit_lt_32 hm hbit) hbit
    have hpop : DIMM_POPULATED map (dimmLoc d) = 1 := by
      rw [hloc]
      exact (DIMM_POPULATED_eq_one_iff map i).2 hbit
    have hmem : d ∈ (getDimmsScan map l map).1 := by
      rw [getDimmsScan_fst]
      exact List.mem_filter.2 ⟨hd, by simp [hpop]⟩
    have := List.length_pos.2 (List.ne_nil_of_mem hmem)
    omega

/-- A nonzero matcher count means the output buffer is nonempty and the count
is its length. -/
lemma getDimms_snd_ne_zero_buffer {l : List DIMM} {map : Nat}
    (h : (GetDimmsFromListMatchingInterleaveSet l map).2 ≠ 0) :
    (GetDimmsFromListMatchingInterleaveSet l map).1 ≠ [] ∧
      (GetDimmsFromListMatchingInterleaveSet l map).2 =
        (GetDimmsFromListMatchingInterleaveSet l map).1.length := by
  rcases getDimms_snd_cases l map with hc | hc
  · exact absurd hc h
  · refine ⟨?_, hc⟩
    intro hnil
    rw [hc, hnil] at h
    exact h rfl

/-- Removing an absent DIMM is a no-op. -/
lemma removeDimmCore_of_not_mem {l : List DIMM} {d : DIMM} (h : d ∉ l) :
    removeDimmCore l d = l := by
  induction l with
  | nil => rfl
  | cons x xs ih =>
    rw [List.mem_cons, not_or] at h
    simp only [removeDimmCore, h.1, if_false]
    rw [ih h.2]

/-- Removal of one DIMM is multiset erasure. -/
lemma coe_removeDimmCore (l : List DIMM) (d : DIMM) :
    ((removeDimmCore l d : List DIMM) : Multiset DIMM) = (l : Multiset DIMM).erase d := by
  induction l with
  | nil => simp [removeDimmCore]
  | cons x xs ih =>
    by_cases h : d = x
    · subst h
      simp [removeDimmCore]
    · simp only [removeDimmCore, h, if_false]
      have hxd : x ≠ d := fun hh => h hh.symm
      calc ((x :: removeDimmCore xs d : List DIMM) : Multiset DIMM)
          = x ::ₘ ((removeDimmCore xs d : List DIMM) : Multiset DIMM) :=
            (Multiset.cons_coe x (removeDimmCore xs d)).symm
        _ = x ::ₘ ((xs : Multiset DIMM).erase d) := by rw [ih]
        _ = (x ::ₘ (xs : Multiset DIMM)).erase d :=
            (Multiset.erase_cons_tail (xs : Multiset DIMM) hxd).symm
        _ = ((x :: xs : List DIMM) : Multiset DIMM).erase d := by
            rw [Multiset.cons_coe]

/-- Removal of an array of DIMMs is iterated multiset erasure, i.e. multiset
difference. -/
lemma coe_removeDimmArrayCore (l ds : List DIMM) :
    ((removeDimmArrayCore l ds : List DIMM) : Multiset DIMM) =
      (l : Multiset DIMM) - (ds : Multiset DIMM) := by
  induction ds generalizing l with
  | nil => simp [removeDimmArrayCore]
  | cons d ds ih =>
    have : removeDimmArrayCore l (d :: ds) = removeDimmArrayCore (removeDimmCore l d) ds := rfl
    rw [this, ih, coe_removeDimmCore]
    have : ((d :: ds : List DIMM) : Multiset DIMM) = d ::ₘ (ds : Multiset DIMM) := rfl
    rw [this, Multiset.sub_cons]

/-- Length after array removal, when the removed DIMMs are a sub-multiset of
the list. -/
lemma removeDimmArrayCore_length {l m : List DIMM}
    (h : (m : Multiset DIMM) ≤ (l : Multiset DIMM)) :
    (removeDimmArrayCore l m).length = l.length - m.length := by
  have hcard := congrArg Multiset.card (coe_removeDimmArrayCore l m)
  rw [Multiset.coe_card, Multiset.card_sub h, Multiset.coe_card, Multiset.coe_card] at hcard
  exact hcard

/-- Array removal splits the list: removed part plus remainder is a
permutation of the original. -/
lemma removeDimmArrayCore_perm {l m : List DIMM}
    (h : (m : Multiset DIMM) ≤ (l : Multiset DIMM)) :
    List.Perm (m ++ removeDimmArrayCore l m) l := by
  apply Multiset.coe_eq_coe.1
  rw [← Multiset.coe_add, coe_removeDimmArrayCore]
  exact add_tsub_cancel_of_le h

/-- A successful table walk selects some non-sentinel entry of the table whose
match succeeded, and returns that entry's matched buffer. -/
lemma findBestAux_success (l m : List DIMM) : ∀ t : List Nat,
    findBestAux l t = (EfiStatus.Success, m) →
    ∃ p ∈ t, p ≠ 0 ∧ (GetDimmsFromListMatchingInterleaveSet l p).2 ≠ 0 ∧
      m = (GetDimmsFromListMatchingInterleaveSet l p).1 := by
  intro t
  induction t with
  | nil => intro h; simp [findBestAux] at h
  | cons p ps ih =>
    intro h
    by_cases hp : p = END_OF_INTERLEAVE_SETS
    · simp [findBestAux, hp] at h
    · by_cases hu : (GetDimmsFromListMatchingInterleaveSet l p).2 ≠ 0
      · rw [findBestAux, if_neg hp, if_pos hu] at h
        exact ⟨p, List.mem_cons_self p ps, hp, hu, (Prod.mk.inj h).2.symm⟩
      · rw [findBestAux, if_neg hp, if_neg hu] at h
        obtain ⟨q, hq, hq0, hqu, hqm⟩ := ih h
        exact ⟨q, List.mem_cons_of_mem p hq, hq0, hqu, hqm⟩

/-- The table walk only ever reports success or abortion. -/
lemma findBestAux_fst (l : List DIMM) : ∀ t : List Nat,
    (findBestAux l t).1 = EfiStatus.Success ∨ (findBestAux l t).1 = EfiStatus.Aborted := by
  intro t
  induction t with
  | nil => exact Or.inr rfl
  | cons p ps ih =>
    by_cases hp : p = END_OF_INTERLEAVE_SETS
    · rw [findBestAux, if_pos hp]
      exact Or.inr rfl
    · by_cases hu : (GetDimmsFromListMatchingInterleaveSet l p).2 ≠ 0
      · rw [findBestAux, if_neg hp, if_pos hu]
        exact Or.inl rfl
      · rw [findBestAux, if_neg hp, if_neg hu]
        exact ih

/-- A successful best-match selection returns a nonempty sub-multiset of the
working list. -/
lemma findBest_success {l m : List DIMM}
    (h : FindBestInterleavingForDimms l = (EfiStatus.Success, m)) :
    m ≠ [] ∧ (m : Multiset DIMM) ≤ (l : Multiset DIMM) := by
  obtain ⟨p, _, hp0, hu, hm⟩ := findBestAux_success l m INTERLEAVE_SETS h
  obtain ⟨hne, _⟩ := getDimms_snd_ne_zero_buffer hu
  refine ⟨hm ▸ hne, ?_⟩
  rw [hm, getDimms_fst_filter]
  exact Multiset.coe_le.2 (List.filter_sublist l).subperm

/-- Packaged facts about a successful best-match selection. -/
lemma findBest_success_facts {l m : List DIMM}
    (h : FindBestInterleavingForDimms l = (EfiStatus.Success, m)) :
    m ≠ [] ∧ m.length ≤ l.length ∧
      (removeDimmArrayCore l m).length = l.length - m.length ∧
      List.Perm (m ++ removeDimmArrayCore l m) l := by
  obtain ⟨hne, hle⟩ := findBest_success h
  have hcard := Multiset.card_le_card hle
  rw [Multiset.coe_card, Multiset.coe_card] at hcard
  exact ⟨hne, hcard, removeDimmArrayCore_length hle, removeDimmArrayCore_perm hle⟩

/-- A population covering no non-sentinel table entry makes the walk reach
the end of the table and abort. -/
lemma findBestAux_abort (l : List DIMM) : ∀ t : List Nat,
    (∀ p ∈ t, p < 2 ^ 32) → (∀ p ∈ t, p ≠ 0 → ¬ covers l p) →
    findBestAux l t = (EfiStatus.Aborted, []) := by
  intro t
  induction t with
  | nil => intro _ _; rfl
  | cons p ps ih =>
    intro h32 hnc
    by_cases hp : p = END_OF_INTERLEAVE_SETS
    · rw [findBestAux, if_pos hp]
    · have hu : ¬ (GetDimmsFromListMatchingInterleaveSet l p).2 ≠ 0 := by
        rw [getDimms_snd_ne_zero_iff l p hp (h32 p (List.mem_cons_self p ps))]
        exact hnc p (List.mem_cons_self p ps) hp
      rw [findBestAux, if_neg hp, if_neg hu]
      exact ih (fun q hq => h32 q (List.mem_cons_of_mem p hq))
        (fun q hq => hnc q (List.mem_cons_of_mem p hq))

/-- First-match semantics of the table walk: if the entries before index `i`
are not covered and entry `i` is (all entries up to `i` being non-sentinel),
the walk returns exactly the matched buffer of entry `i`. -/
lemma findBestAux_first (l : List DIMM) : ∀ (t : List Nat) (i : Nat),
    (∀ p ∈ t, p < 2 ^ 32) → i < t.length →
    (∀ j, j ≤ i → t.getD j 0 ≠ 0) →
    (∀ j, j < i → ¬ covers l (t.getD j 0)) →
    covers l (t.getD i 0) →
    findBestAux l t =
      (EfiStatus.Success, (GetDimmsFromListMatchingInterleaveSet l (t.getD i 0)).1) := by
  intro t
  induction t with
  | nil =>
    intro i _ hi
    simp at hi
  | cons p ps ih =>
    intro i h32 hi hnz hprev hcov
    cases i with
    | zero =>
      rw [List.getD_cons_zero] at hcov
      have hp : ¬ p = END_OF_INTERLEAVE_SETS := by
        have h0 := hnz 0 (le_refl 0)
        rw [List.getD_cons_zero] at h0
        exact h0
      have hu : (GetDimmsFromListMatchingInterleaveSet l p).2 ≠ 0 :=
        (getDimms_snd_ne_zero_iff l p hp (h32 p (List.mem_cons_self p ps))).2 hcov
      rw [findBestAux, if_neg hp, if_pos hu, List.getD_cons_zero]
    | succ i =>
      have hp : ¬ p = END_OF_INTERLEAVE_SETS := by
        have h0 := hnz 0 (by omega)
        rw [List.getD_cons_zero] at h0
        exact h0
      have hnc : ¬ covers l p := by
        have := hprev 0 (by omega)
        rwa [List.getD_cons_zero] at this
      have hu : ¬ (GetDimmsFromListMatchingInterleaveSet l p).2 ≠ 0 := by
        rw [getDimms_snd_ne_zero_iff l p hp (h32 p (List.mem_cons_self p ps))]
        exact hnc
      rw [findBestAux, if_neg hp, if_neg hu, List.getD_cons_succ]
      refine ih i (fun q hq => h32 q (List.mem_cons_of_mem p hq)) (by simpa using hi)
        (fun j hj => ?_) (fun j hj => ?_) (by rwa [List.getD_cons_succ] at hcov)
      · have := hnz (j + 1) (by omega)
        rwa [List.getD_cons_succ] at this
      · have := hprev (j + 1) (by omega)
        rwa [List.getD_cons_succ] at this

/-- Master invariant of the orchestration loop on success: the goals appended
by the loop carve the working list into groups — their DIMM lists
concatenate, up to permutation, to the working list — and every appended goal
carries the `UINT64` size share and the sequence tag. -/
lemma performLoop_success_spec (N sz sq : Nat) : ∀ (fuel : Nat) (working : List DIMM)
    (total : Nat) (goals gs : List RegionGoal),
    performLoop N sz sq fuel working total goals = some (EfiStatus.Success, gs) →
    ∃ new : List RegionGoal, gs = goals ++ new ∧
      List.Perm ((new.map RegionGoal.pDimms).flatten) working ∧
      ∀ g ∈ new, g.Size = sz * g.pDimms.length % UINT64_MOD / N ∧
        g.DimmsNum = g.pDimms.length ∧ g.SequenceIndex = sq ∧ g.pDimms ≠ [] := by
  intro fuel
  induction fuel with
  | zero =>
    intro working total goals gs h
    cases working with
    | nil =>
      refine ⟨[], ?_, by simp, by simp⟩
      have := Option.some.inj h
      rw [(Prod.mk.inj this).2]
      simp
    | cons d ds => simp [performLoop] at h
  | succ fuel ih =>
    intro working total goals gs h
    cases working with
    | nil =>
      refine ⟨[], ?_, by simp, by simp⟩
      have := Option.some.inj h
      rw [(Prod.mk.inj this).2]
      simp
    | cons d ds =>
      rw [performLoop] at h
      by_cases h1 : (FindBestInterleavingForDimms (d :: ds)).1 = EfiStatus.Success
      · rw [if_neg (by simp [h1])] at h
        by_cases h2 : total + (FindBestInterleavingForDimms (d :: ds)).2.length > N
        · rw [if_pos h2] at h
          have := (Prod.mk.inj (Option.some.inj h)).1
          simp at this
        · rw [if_neg h2] at h
          have hfb : FindBestInterleavingForDimms (d :: ds) =
              (EfiStatus.Success, (FindBestInterleavingForDimms (d :: ds)).2) := by
            rw [← h1]
          obtain ⟨hne, hle⟩ := findBest_success hfb
          obtain ⟨new1, hgs, hperm, hprops⟩ := ih _ _ _ _ h
          refine ⟨CreateRegionGoal (FindBestInterleavingForDimms (d :: ds)).2
            (FindBestInterleavingForDimms (d :: ds)).2.length
            (sz * (FindBestInterleavingForDimms (d :: ds)).2.length % UINT64_MOD / N) sq ::
            new1, ?_, ?_, ?_⟩
          · rw [hgs]
            simp
          · simp only [List.map_cons, List.flatten_cons]
            have hstep := removeDimmArrayCore_perm hle
            exact ((hperm.append_left _).trans hstep)
          · intro g hg
            rcases List.mem_cons.1 hg with hg | hg
            · subst hg
              exact ⟨rfl, rfl, rfl, hne⟩
            · exact hprops g hg
      · rw [if_pos h1] at h
        have := (Prod.mk.inj (Option.some.inj h)).1
        exact absurd this h1

/-- Any completed run of the loop appends goals whose total DIMM count is at
most the length of the working list it started from. -/
lemma performLoop_partial (N sz sq : Nat) : ∀ (fuel : Nat) (working : List DIMM)
    (total : Nat) (goals : List RegionGoal) (st : EfiStatus) (gs : List RegionGoal),
    performLoop N sz sq fuel working total goals = some (st, gs) →
    ∃ new, gs = goals ++ new ∧
      ((new.map fun g => g.pDimms.length).sum ≤ working.length) := by
  intro fuel
  induction fuel with
  | zero =>
    intro working total goals st gs h
    cases working with
    | nil =>
      refine ⟨[], ?_, by simp⟩
      have := Option.some.inj h
      rw [(Prod.mk.inj this).2]
      simp
    | cons d ds => simp [performLoop] at h
  | succ fuel ih =>
    intro working total goals st gs h
    cases working with
    | nil =>
      refine ⟨[], ?_, by simp⟩
      have := Option.some.inj h
      rw [(Prod.mk.inj this).2]
      simp
    | cons d ds =>
      rw [performLoop] at h
      by_cases h1 : (FindBestInterleavingForDimms (d :: ds)).1 = EfiStatus.Success
      · rw [if_neg (by simp [h1])] at h
        by_cases h2 : total + (FindBestInterleavingForDimms (d :: ds)).2.length > N
        · rw [if_pos h2] at h
          refine ⟨[], ?_, by simp⟩
          have := Option.some.inj h
          rw [(Prod.mk.inj this).2]
          simp
        · rw [if_neg h2] at h
          have hfb : FindBestInterleavingForDimms (d :: ds) =
              (EfiStatus.Success, (FindBestInterleavingForDimms (d :: ds)).2) := by
            rw [← h1]
          obtain ⟨hne, hlen, hrem, hperm⟩ := findBest_success_facts hfb
          obtain ⟨new1, hgs, hsum⟩ := ih _ _ _ _ _ h
          refine ⟨CreateRegionGoal (FindBestInterleavingForDimms (d :: ds)).2
            (FindBestInterleavingForDimms (d :: ds)).2.length
            (sz * (FindBestInterleavingForDimms (d :: ds)).2.length % UINT64_MOD / N) sq ::
            new1, ?_, ?_⟩
          · rw [hgs]
            simp
          · simp only [List.map_cons, List.sum_cons, CreateRegionGoal]
            rw [hrem] at hsum
            omega
      · rw [if_pos h1] at h
        refine ⟨[], ?_, by simp⟩
        have := Option.some.inj h
        rw [(Prod.mk.inj this).2]
        simp

/-- The defensive `EFI_BAD_BUFFER_SIZE` branch never fires while the running
total plus the remaining working list stays within the original count. -/
lemma performLoop_no_badbuffer (N sz sq : Nat) : ∀ (fuel : Nat) (working : List DIMM)
    (total : Nat) (goals : List RegionGoal) (st : EfiStatus) (gs : List RegionGoal),
    total + working.length ≤ N →
    performLoop N sz sq fuel working total goals = some (st, gs) →
    st ≠ EfiStatus.BadBufferSize := by
  intro fuel
  induction fuel with
  | zero =>
    intro working total goals st gs hN h
    cases working with
    | nil =>
      have := (Prod.mk.inj (Option.some.inj h)).1
      rw [← this]
      simp
    | cons d ds => simp [performLoop] at h
  | succ fuel ih =>
    intro working total goals st gs hN h
    cases working with
    | nil =>
      have := (Prod.mk.inj (Option.some.inj h)).1
      rw [← this]
      simp
    | cons d ds =>
      rw [performLoop] at h
      by_cases h1 : (FindBestInterleavingForDimms (d :: ds)).1 = EfiStatus.Success
      · rw [if_neg (by simp [h1])] at h
        have hfb : FindBestInterleavingForDimms (d :: ds) =
            (EfiStatus.Success, (FindBestInterleavingForDimms (d :: ds)).2) := by
          rw [← h1]
        obtain ⟨hne, hlen, hrem, hperm⟩ := findBest_success_facts hfb
        by_cases h2 : total + (FindBestInterleavingForDimms (d :: ds)).2.length > N
        · exfalso
          have : (d :: ds).length ≥ (FindBestInterleavingForDimms (d :: ds)).2.length := hlen
          omega
        · rw [if_neg h2] at h
          refine ih _ _ _ _ _ ?_ h
          rw [hrem]
          omega
      · rw [if_pos h1] at h
        have hst := (Prod.mk.inj (Option.some.inj h)).1
        rcases findBestAux_fst (d :: ds) INTERLEAVE_SETS with hc | hc
        · exact absurd hc h1
        · rw [← hst, FindBestInterleavingForDimms, hc]
          simp

/-- With fuel at least the length of the working list, the loop always
returns a result: every successful iteration removes at least one DIMM. -/
lemma performLoop_isSome (N sz sq : Nat) : ∀ (fuel : Nat) (working : List DIMM)
    (total : Nat) (goals : List RegionGoal), working.length ≤ fuel →
    (performLoop N sz sq fuel working total goals).isSome = true := by
  intro fuel
  induction fuel with
  | zero =>
    intro working total goals hlen
    have : working = [] := List.eq_nil_of_length_eq_zero (by omega)
    subst this
    simp [performLoop]
  | succ fuel ih =>
    intro working total goals hlen
    cases working with
    | nil => simp [performLoop]
    | cons d ds =>
      rw [performLoop]
      by_cases h1 : (FindBestInterleavingForDimms (d :: ds)).1 = EfiStatus.Success
      · rw [if_neg (by simp [h1])]
        by_cases h2 : total + (FindBestInterleavingForDimms (d :: ds)).2.length > N
        · rw [if_pos h2]
          simp
        · rw [if_neg h2]
          have hfb : FindBestInterleavingForDimms (d :: ds) =
              (EfiStatus.Success, (FindBestInterleavingForDimms (d :: ds)).2) := by
            rw [← h1]
          obtain ⟨hne, hl, hrem, hperm⟩ := findBest_success_facts hfb
          refine ih _ _ _ ?_
          rw [hrem]
          have hpos : 0 < (FindBestInterleavingForDimms (d :: ds)).2.length :=
            List.length_pos.2 hne
          simp only [List.length_cons] at hlen ⊢
          omega
      · rw [if_pos h1]
        simp

/-- Division shortfall of one term: `a` is below the next multiple of `N`. -/
lemma share_term_lt (a N : Nat) (hN : 0 < N) : a < (a / N + 1) * N := by
  have h1 := Nat.div_add_mod a N
  have h2 := Nat.mod_lt a hN
  calc a = N * (a / N) + a % N := h1.symm
    _ < N * (a / N) + N := by omega
    _ = (a / N + 1) * N := by ring

/-- Summed truncating shares never exceed the exact total, scaled by `N`. -/
lemma shareSum_mul_le (sz N : Nat) : ∀ L : List Nat,
    ((L.map fun k => sz * k / N).sum) * N ≤ sz * L.sum := by
  intro L
  induction L with
  | nil => simp
  | cons k t ih =>
    simp only [List.map_cons, List.sum_cons]
    have h1 : (sz * k / N) * N ≤ sz * k := Nat.div_mul_le_self _ _
    have hexp : (sz * k / N + (t.map fun k => sz * k / N).sum) * N =
        (sz * k / N) * N + ((t.map fun k => sz * k / N).sum) * N := by ring
    have hexp2 : sz * (k + t.sum) = sz * k + sz * t.sum := by ring
    omega

/-- Scaled lower bound on summed truncating shares, non-strict version. -/
lemma shareSum_mul_ge_aux (sz N : Nat) (hN : 0 < N) : ∀ L : List Nat,
    sz * L.sum ≤ ((L.map fun k => sz * k / N).sum + L.length) * N := by
  intro L
  induction L with
  | nil => simp
  | cons k t ih =>
    simp only [List.map_cons, List.sum_cons, List.length_cons]
    have h1 := share_term_lt (sz * k) N hN
    have hexp : (sz * k / N + (t.map fun k => sz * k / N).sum + (t.length + 1)) * N =
        (sz * k / N + 1) * N + ((t.map fun k => sz * k / N).sum + t.length) * N := by ring
    have hexp2 : sz * (k + t.sum) = sz * k + sz * t.sum := by ring
    omega

/-- Scaled lower bound on summed truncating shares, strict for a nonempty
list. -/
lemma shareSum_mul_gt (sz N : Nat) (hN : 0 < N) (L : List Nat) (hne : L ≠ []) :
    sz * L.sum < ((L.map fun k => sz * k / N).sum + L.length) * N := by
  cases L with
  | nil => exact absurd rfl hne
  | cons k t =>
    simp only [List.map_cons, List.sum_cons, List.length_cons]
    have h1 := share_term_lt (sz * k) N hN
    have h2 := shareSum_mul_ge_aux sz N hN t
    have hexp : (sz * k / N + (t.map fun k => sz * k / N).sum + (t.length + 1)) * N =
        (sz * k / N + 1) * N + ((t.map fun k => sz * k / N).sum + t.length) * N := by ring
    have hexp2 : sz * (k + t.sum) = sz * k + sz * t.sum := by ring
    omega

/-- When the group sizes add up to `N`, the summed truncating shares are at
most the requested size. -/
lemma shareSum_le_of_sum_eq {lens : List Nat} {sz N : Nat} (hN : 0 < N) (hsum : lens.sum = N) :
    ((lens.map fun k => sz * k / N).sum) ≤ sz := by
  have h := shareSum_mul_le sz N lens
  rw [hsum] at h
  exact Nat.le_of_mul_le_mul_right h hN

/-- When the group sizes add up to `N` and there is at least one group, the
shortfall of the summed truncating shares is below the number of groups. -/
lemma shareSum_shortfall {lens : List Nat} (sz : Nat) {N : Nat} (hN : 0 < N) (hsum : lens.sum = N)
    (hne : lens ≠ []) :
    sz < ((lens.map fun k => sz * k / N).sum) + lens.length := by
  have h := shareSum_mul_gt sz N hN lens hne
  rw [hsum] at h
  exact lt_of_mul_lt_mul_right h (Nat.zero_le N)

/-- Shape of a successful full run of `PerformInterleavingAndCreateGoal` with
a nonzero requested size: the goals partition the input and each carries the
`UINT64` size share. -/
lemma perform_success_shape (pDimms : List DIMM) (sz sq : Nat) (gs : List RegionGoal)
    (hsz : sz ≠ 0)
    (h : PerformInterleavingAndCreateGoal pDimms sz sq = some (EfiStatus.Success, gs)) :
    List.Perm ((gs.map RegionGoal.pDimms).flatten) pDimms ∧
      ((gs.map fun g => g.pDimms.length).sum = pDimms.length) ∧
      ∀ g ∈ gs, g.Size = sz * g.pDimms.length % UINT64_MOD / pDimms.length ∧
        g.pDimms ≠ [] := by
  rw [PerformInterleavingAndCreateGoal, if_neg hsz] at h
  obtain ⟨new, hgs, hperm, hprops⟩ := performLoop_success_spec _ _ _ _ _ _ _ _ h
  rw [List.nil_append] at hgs
  subst hgs
  refine ⟨hperm, ?_, fun g hg => ⟨(hprops g hg).1, (hprops g hg).2.2.2⟩⟩
  have hlen := hperm.length_eq
  rw [List.length_flatten, List.map_map] at hlen
  exact hlen

/-- In a successful full run, each goal group is no larger than the whole
input. -/
lemma perform_success_group_le {pDimms : List DIMM} {sz sq : Nat} {gs : List RegionGoal}
    (hsz : sz ≠ 0)
    (h : PerformInterleavingAndCreateGoal pDimms sz sq = some (EfiStatus.Success, gs)) :
    ∀ g ∈ gs, g.pDimms.length ≤ pDimms.length := by
  obtain ⟨-, hsum, -⟩ := perform_success_shape pDimms sz sq gs hsz h
  intro g hg
  have hmem : g.pDimms.length ∈ gs.map fun g => g.pDimms.length :=
    List.mem_map_of_mem _ hg
  exact hsum ▸ List.le_sum_of_mem hmem

/-- C7: for every DIMM population and sequence index, a requested total
interleave size of zero makes `PerformInterleavingAndCreateGoal` return
`EFI_SUCCESS` with zero goals created, leaving the caller's output count
unchanged (the list of appended goals is empty). -/
theorem perform_zero_size_noop (pDimms : List DIMM) (SequenceIndex : Nat) :
    PerformInterleavingAndCreateGoal pDimms 0 SequenceIndex =
      some (EfiStatus.Success, []) := by
  rw [PerformInterleavingAndCreateGoal, if_pos rfl]

/-- C8: removing a DIMM that is not in the working list returns `EFI_SUCCESS`
and leaves the list (and hence its count) unchanged, and both
`RemoveDimmFromList` and `RemoveDimmArrayFromList` reject any null list,
count, or DIMM/array pointer with `EFI_INVALID_PARAMETER` without modifying
the list. -/
theorem remove_dimm_noop_and_null_rejection :
    (∀ (l : List DIMM) (d : DIMM), d ∉ l →
      RemoveDimmFromList (some l) (some ()) (some d) = (EfiStatus.Success, some l)) ∧
    (∀ (pl : Option (List DIMM)) (pn : Option Unit) (pd : Option DIMM),
      pl = none ∨ pn = none ∨ pd = none →
      RemoveDimmFromList pl pn pd = (EfiStatus.InvalidParameter, pl)) ∧
    (∀ (pl : Option (List DIMM)) (pn : Option Unit) (pa : Option (List DIMM)),
      pl = none ∨ pn = none ∨ pa = none →
      RemoveDimmArrayFromList pl pn pa = (EfiStatus.InvalidParameter, pl)) := by
  refine ⟨?_, ?_, ?_⟩
  · intro l d hd
    simp [RemoveDimmFromList, removeDimmCore_of_not_mem hd]
  · intro pl pn pd h
    rcases h with rfl | rfl | rfl
    · cases pn <;> cases pd <;> rfl
    · cases pl <;> cases pd <;> rfl
    · cases pl <;> cases pn <;> rfl
  · intro pl pn pa h
    rcases h with rfl | rfl | rfl
    · cases pn <;> cases pa <;> rfl
    · cases pl <;> cases pa <;> rfl
    · cases pl <;> cases pn <;> rfl

/-- Witness for C8 at concrete inputs. -/
theorem remove_dimm_noop_and_null_rejection_witness :
    RemoveDimmFromList (some []) (some ()) (some ⟨0, 0, 0⟩) = (EfiStatus.Success, some []) :=
  remove_dimm_noop_and_null_rejection.1 [] ⟨0, 0, 0⟩ (by decide)

/-- C9: the orchestration always terminates.  The loop model with fuel at
least the working-list length never exhausts its fuel (each successful
iteration removes at least one DIMM, so the iteration count is bounded by the
input count), and consequently `PerformInterleavingAndCreateGoal`, which runs
the loop with fuel `DimmsNum`, always returns a result. -/
theorem perform_terminates :
    (∀ (DimmsNum InterleaveSetSize SequenceIndex fuel : Nat) (working : List DIMM)
      (total : Nat) (goals : List RegionGoal), working.length ≤ fuel →
      (performLoop DimmsNum InterleaveSetSize SequenceIndex fuel working total goals).isSome =
        true) ∧
    (∀ (pDimms : List DIMM) (InterleaveSetSize SequenceIndex : Nat),
      (PerformInterleavingAndCreateGoal pDimms InterleaveSetSize SequenceIndex).isSome =
        true) := by
  refine ⟨fun N sz sq fuel w t g h => performLoop_isSome N sz sq fuel w t g h, ?_⟩
  intro pDimms sz sq
  rw [PerformInterleavingAndCreateGoal]
  by_cases hsz : sz = 0
  · rw [if_pos hsz]
    rfl
  · rw [if_neg hsz]
    exact performLoop_isSome _ _ _ _ _ _ _ (le_refl _)

/-- Witness for C9 at concrete inputs. -/
theorem perform_terminates_witness :
    (performLoop 1 4 0 1 [⟨0, 0, 0⟩] 0 []).isSome = true :=
  perform_terminates.1 1 4 0 1 [⟨0, 0, 0⟩] 0 [] (by decide)

/-- C6: whatever result `PerformInterleavingAndCreateGoal` reports, the DIMMs
consumed by the created goals never exceed the original count, and the
defensive `EFI_BAD_BUFFER_SIZE` status is unreachable (proved here with no
precondition at all, which subsumes the claim's no-duplicates and capacity
preconditions). -/
theorem perform_accounting (pDimms : List DIMM) (InterleaveSetSize SequenceIndex : Nat)
    (st : EfiStatus) (gs : List RegionGoal)
    (h : PerformInterleavingAndCreateGoal pDimms InterleaveSetSize SequenceIndex =
      some (st, gs)) :
    ((gs.map fun g => g.pDimms.length).sum ≤ pDimms.length) ∧
      st ≠ EfiStatus.BadBufferSize := by
  rw [PerformInterleavingAndCreateGoal] at h
  by_cases hsz : InterleaveSetSize = 0
  · rw [if_pos hsz] at h
    obtain ⟨h1, h2⟩ := Prod.mk.inj (Option.some.inj h)
    rw [← h1, ← h2]
    simp
  · rw [if_neg hsz] at h
    constructor
    · obtain ⟨new, hgs, hsum⟩ := performLoop_partial _ _ _ _ _ _ _ _ _ h
      rw [hgs]
      simpa using hsum
    · exact performLoop_no_badbuffer _ _ _ _ _ _ _ _ _ (by omega) h

/-- Witness for C6 at concrete inputs. -/
theorem perform_accounting_witness :
    ((([⟨[⟨0, 0, 0⟩], 1, 4, 0⟩] : List RegionGoal).map fun g => g.pDimms.length).sum ≤
        ([⟨0, 0, 0⟩] : List DIMM).length) ∧
      EfiStatus.Success ≠ EfiStatus.BadBufferSize :=
  perform_accounting [⟨0, 0, 0⟩] 4 0 EfiStatus.Success [⟨[⟨0, 0, 0⟩], 1, 4, 0⟩] (by decide)

/-- C1 (amended: the requested size must be nonzero, since a zero-size request
succeeds with no groups at all): on every successful run over a non-empty
input with nonzero requested size, the groups passed to the goal collaborator
partition the input exactly — their concatenation is a permutation of the
input list (each input DIMM in exactly one group, none duplicated, none
dropped) — and the per-group counts sum to the original `DimmsNum`. -/
theorem perform_success_partitions (pDimms : List DIMM) (InterleaveSetSize SequenceIndex : Nat)
    (gs : List RegionGoal) (hne : pDimms ≠ []) (hsz : InterleaveSetSize ≠ 0)
    (h : PerformInterleavingAndCreateGoal pDimms InterleaveSetSize SequenceIndex =
      some (EfiStatus.Success, gs)) :
    List.Perm ((gs.map RegionGoal.pDimms).flatten) pDimms ∧
      ((gs.map fun g => g.pDimms.length).sum = pDimms.length) := by
  obtain ⟨hperm, hsum, -⟩ := perform_success_shape pDimms _ _ gs hsz h
  exact ⟨hperm, hsum⟩

/-- Witness for C1 at concrete inputs. -/
theorem perform_success_partitions_witness :
    List.Perm ((([⟨[⟨0, 0, 0⟩], 1, 4, 0⟩] : List RegionGoal).map RegionGoal.pDimms).flatten)
        ([⟨0, 0, 0⟩] : List DIMM) ∧
      ((([⟨[⟨0, 0, 0⟩], 1, 4, 0⟩] : List RegionGoal).map fun g => g.pDimms.length).sum =
        ([⟨0, 0, 0⟩] : List DIMM).length) :=
  perform_success_partitions [⟨0, 0, 0⟩] 4 0 [⟨[⟨0, 0, 0⟩], 1, 4, 0⟩] (by decide) (by decide)
    (by decide)

/-- Counterexample to C1 as frozen: with a non-empty input and a requested
size of zero, the call returns success while zero groups were passed to the
collaborator, so the groups do not partition the input and the per-group
counts do not sum to `DimmsNum`. -/
theorem perform_success_partitions_cex :
    PerformInterleavingAndCreateGoal [⟨0, 0, 0⟩] 0 0 = some (EfiStatus.Success, []) ∧
      ¬ ((([] : List RegionGoal).map fun g => g.pDimms.length).sum =
          ([⟨0, 0, 0⟩] : List DIMM).length) := by
  constructor
  · decide
  · decide

/-- C2 (amended: the pattern must be nonzero — on the all-zero sentinel
pattern every bit is vacuously covered yet the reported count is zero — and,
being a `UINT32`, below `2 ^ 32`): the matcher reports a nonzero
`*pDimmsUsed` exactly when every slot bit of the pattern is covered by some
DIMM of the list; only DIMMs whose slot bit the pattern names enter the
output buffer; and when coverage fails, `*pDimmsUsed` is reset to zero. -/
theorem getDimms_exact_match_spec (pDimms : List DIMM) (InterleaveMap : Nat)
    (h0 : InterleaveMap ≠ 0) (h32 : InterleaveMap < 2 ^ 32) :
    ((GetDimmsFromListMatchingInterleaveSet pDimms InterleaveMap).2 ≠ 0 ↔
        covers pDimms InterleaveMap) ∧
      (∀ d ∈ (GetDimmsFromListMatchingInterleaveSet pDimms InterleaveMap).1,
        DIMM_POPULATED InterleaveMap (dimmLoc d) = 1) ∧
      (¬ covers pDimms InterleaveMap →
        (GetDimmsFromListMatchingInterleaveSet pDimms InterleaveMap).2 = 0) := by
  refine ⟨getDimms_snd_ne_zero_iff _ _ h0 h32, ?_, ?_⟩
  · intro d hd
    rw [getDimms_fst_filter] at hd
    have := List.mem_filter.1 hd
    simpa using this.2
  · intro hnc
    by_contra hne2
    exact hnc ((getDimms_snd_ne_zero_iff _ _ h0 h32).1 hne2)

/-- Witness for C2 at concrete inputs. -/
theorem getDimms_exact_match_spec_witness :
    ((GetDimmsFromListMatchingInterleaveSet [⟨0, 0, 0⟩] 1).2 ≠ 0 ↔
        covers [⟨0, 0, 0⟩] 1) ∧
      (∀ d ∈ (GetDimmsFromListMatchingInterleaveSet [⟨0, 0, 0⟩] 1).1,
        DIMM_POPULATED 1 (dimmLoc d) = 1) ∧
      (¬ covers [⟨0, 0, 0⟩] 1 →
        (GetDimmsFromListMatchingInterleaveSet [⟨0, 0, 0⟩] 1).2 = 0) :=
  getDimms_exact_match_spec [⟨0, 0, 0⟩] 1 (by decide) (by decide)

/-- Counterexample to C2 as frozen: on the all-zero pattern, every set bit is
vacuously covered (there is none), yet the matcher reports `*pDimmsUsed = 0`,
so the claimed equivalence fails. -/
theorem getDimms_exact_match_cex :
    ¬ (((GetDimmsFromListMatchingInterleaveSet [] 0).2 ≠ 0) ↔ covers [] 0) := by
  decide

/-- C4 (amended: the population must be non-empty and the requested size
nonzero — an empty population or a zero-size request returns success with
zero goals instead of the Aborted failure): when the occupied slots satisfy
no priority-table entry, the selector reaches the sentinel and reports
`EFI_ABORTED`, and the whole orchestration stops at once with that failure
and zero goals created. -/
theorem no_table_match_aborts (pDimms : List DIMM) (InterleaveSetSize SequenceIndex : Nat)
    (hnm : noTableMatch pDimms) (hne : pDimms ≠ []) (hsz : InterleaveSetSize ≠ 0) :
    FindBestInterleavingForDimms pDimms = (EfiStatus.Aborted, []) ∧
      PerformInterleavingAndCreateGoal pDimms InterleaveSetSize SequenceIndex =
        some (EfiStatus.Aborted, []) := by
  have habort : FindBestInterleavingForDimms pDimms = (EfiStatus.Aborted, []) :=
    findBestAux_abort pDimms INTERLEAVE_SETS (by decide) hnm
  refine ⟨habort, ?_⟩
  rw [PerformInterleavingAndCreateGoal, if_neg hsz]
  cases pDimms with
  | nil => exact absurd rfl hne
  | cons d ds =>
    simp only [List.length_cons]
    rw [performLoop]
    have h1 : (FindBestInterleavingForDimms (d :: ds)).1 ≠ EfiStatus.Success := by
      rw [habort]
      simp
    rw [if_pos h1, habort]

/-- Witness for C4 at concrete inputs (one DIMM whose controller id places it
outside every slot the table names). -/
theorem no_table_match_aborts_witness :
    FindBestInterleavingForDimms [⟨0, 6, 0⟩] = (EfiStatus.Aborted, []) ∧
      PerformInterleavingAndCreateGoal [⟨0, 6, 0⟩] 5 0 = some (EfiStatus.Aborted, []) :=
  no_table_match_aborts [⟨0, 6, 0⟩] 5 0 (by decide) (by decide) (by decide)

/-- Counterexample to C4 as frozen: the empty population and the zero-size
request both have occupied slots satisfying no table entry, yet the
orchestration returns success (with zero goals) rather than the Aborted
failure. -/
theorem no_table_match_aborts_cex :
    (noTableMatch [] ∧
      PerformInterleavingAndCreateGoal [] 5 3 = some (EfiStatus.Success, [])) ∧
    (noTableMatch [⟨0, 6, 0⟩] ∧
      PerformInterleavingAndCreateGoal [⟨0, 6, 0⟩] 0 0 = some (EfiStatus.Success, [])) := by
  refine ⟨⟨by decide, by decide⟩, by decide, by decide⟩

/-- C3: the priority table is exactly the fixed sentinel-terminated sequence
described by the spec — one 6-way pattern covering all six slots, three 4-way
patterns, two 3-way patterns each covering the three channels of one
controller, three 2-way same-channel cross-controller patterns, six further
2-way patterns, six 1-way single-slot patterns, then the zero sentinel — and
the best-match selector scans it top to bottom, returning the matched subset
of the first entry whose required slots are all present. -/
theorem interleave_table_and_selector :
    (INTERLEAVE_SETS =
      [0x3F, 0x0F, 0x3C, 0x33, 0x15, 0x2A, 0x03, 0x0C, 0x30,
        0x05, 0x0A, 0x14, 0x28, 0x11, 0x22, 0x01, 0x02, 0x04, 0x08, 0x10, 0x20, 0]) ∧
    INTERLEAVE_SETS.length = 22 ∧
    INTERLEAVE_SETS.getD 21 1 = 0 ∧
    (∀ i, i < 21 → INTERLEAVE_SETS.getD i 0 ≠ 0) ∧
    (INTERLEAVE_SETS.map bitCount6 =
      [6, 4, 4, 4, 3, 3, 2, 2, 2, 2, 2, 2, 2, 2, 2, 1, 1, 1, 1, 1, 1, 0]) ∧
    INTERLEAVE_SETS.getD 0 0 = 2 ^ 6 - 1 ∧
    (∀ ch, ch < 3 → (INTERLEAVE_SETS.getD 4 0).testBit (DIMM_LOCATION 0 ch) = true) ∧
    (∀ ch, ch < 3 → (INTERLEAVE_SETS.getD 5 0).testBit (DIMM_LOCATION 1 ch) = true) ∧
    (∀ ch, ch < 3 → INTERLEAVE_SETS.getD (6 + ch) 0 =
      2 ^ DIMM_LOCATION 0 ch + 2 ^ DIMM_LOCATION 1 ch) ∧
    (∀ k, k < 6 → INTERLEAVE_SETS.getD (15 + k) 0 = 2 ^ k) ∧
    (∀ (pDimms : List DIMM) (i : Nat), i < 21 →
      (∀ j, j < i → ¬ covers pDimms (INTERLEAVE_SETS.getD j 0)) →
      covers pDimms (INTERLEAVE_SETS.getD i 0) →
      FindBestInterleavingForDimms pDimms =
        (EfiStatus.Success,
          (GetDimmsFromListMatchingInterleaveSet pDimms (INTERLEAVE_SETS.getD i 0)).1)) := by
  refine ⟨by decide, by decide, by decide, by decide, by decide, by decide, by decide,
    by decide, by decide, by decide, ?_⟩
  intro pDimms i hi hprev hcov
  have hlen : INTERLEAVE_SETS.length = 22 := by decide
  have hnz : ∀ j, j < 21 → INTERLEAVE_SETS.getD j 0 ≠ 0 := by decide
  exact findBestAux_first pDimms INTERLEAVE_SETS i (by decide) (by omega)
    (fun j hj => hnz j (by omega)) hprev hcov

/-- Witness for C3 at concrete inputs: a lone DIMM in slot 0 fails every
entry before the first 1-way pattern (index 15) and is matched by it. -/
theorem interleave_table_and_selector_witness :
    FindBestInterleavingForDimms [⟨0, 0, 0⟩] =
      (EfiStatus.Success,
        (GetDimmsFromListMatchingInterleaveSet [⟨0, 0, 0⟩] (INTERLEAVE_SETS.getD 15 0)).1) :=
  interleave_table_and_selector.2.2.2.2.2.2.2.2.2.2 [⟨0, 0, 0⟩] 15 (by decide) (by decide)
    (by decide)

/-- C5 (amended: the statement holds for runs whose size arithmetic does not
wrap the 64-bit product `InterleaveSetSize * DimmsUsed`, the input must be
non-empty, and the requested size nonzero — outside these bounds the shares
wrap, see the counterexample): on success, each group is allocated exactly
`requested_size * group_size / total_dimm_count` with truncating division and
no remainder redistribution, the allocated capacities sum to at most the
requested size, and the total shortfall is below the group count (that is, at
most `group count - 1`). -/
theorem perform_share_bounds (pDimms : List DIMM) (InterleaveSetSize SequenceIndex : Nat)
    (gs : List RegionGoal) (hne : pDimms ≠ []) (hsz : InterleaveSetSize ≠ 0)
    (hov : InterleaveSetSize * pDimms.length < 2 ^ 64)
    (h : PerformInterleavingAndCreateGoal pDimms InterleaveSetSize SequenceIndex =
      some (EfiStatus.Success, gs)) :
    (∀ g ∈ gs, g.Size = InterleaveSetSize * g.pDimms.length / pDimms.length) ∧
      (gs.map RegionGoal.Size).sum ≤ InterleaveSetSize ∧
      InterleaveSetSize < (gs.map RegionGoal.Size).sum + gs.length := by
  obtain ⟨hperm, hsum, hprops⟩ := perform_success_shape pDimms _ _ gs hsz h
  have hN : 0 < pDimms.length := List.length_pos.2 hne
  have hsizes : ∀ g ∈ gs, g.Size = InterleaveSetSize * g.pDimms.length / pDimms.length := by
    intro g hg
    have hle : g.pDimms.length ≤ pDimms.length := perform_success_group_le hsz h g hg
    have hlt : InterleaveSetSize * g.pDimms.length < 2 ^ 64 :=
      lt_of_le_of_lt (Nat.mul_le_mul_left _ hle) hov
    have := (hprops g hg).1
    rw [this]
    simp only [UINT64_MOD]
    rw [Nat.mod_eq_of_lt hlt]
  have hgs_ne : gs ≠ [] := by
    intro hnil
    subst hnil
    exact hne (List.Perm.eq_nil hperm.symm)
  have hmap : gs.map RegionGoal.Size =
      (gs.map fun g => g.pDimms.length).map fun k =>
        InterleaveSetSize * k / pDimms.length := by
    rw [List.map_map]
    exact List.map_congr_left fun g hg => hsizes g hg
  have hlens_ne : (gs.map fun g => g.pDimms.length) ≠ [] := by
    simpa using hgs_ne
  refine ⟨hsizes, ?_, ?_⟩
  · rw [hmap]
    exact shareSum_le_of_sum_eq hN hsum
  · rw [hmap]
    have := shareSum_shortfall InterleaveSetSize hN hsum hlens_ne
    simpa using this

/-- Witness for C5 at concrete inputs. -/
theorem perform_share_bounds_witness :
    (∀ g ∈ ([⟨[⟨0, 0, 0⟩], 1, 4, 0⟩] : List RegionGoal),
        g.Size = 4 * g.pDimms.length / ([⟨0, 0, 0⟩] : List DIMM).length) ∧
      (([⟨[⟨0, 0, 0⟩], 1, 4, 0⟩] : List RegionGoal).map RegionGoal.Size).sum ≤ 4 ∧
      4 < (([⟨[⟨0, 0, 0⟩], 1, 4, 0⟩] : List RegionGoal).map RegionGoal.Size).sum +
        ([⟨[⟨0, 0, 0⟩], 1, 4, 0⟩] : List RegionGoal).length :=
  perform_share_bounds [⟨0, 0, 0⟩] 4 0 [⟨[⟨0, 0, 0⟩], 1, 4, 0⟩] (by decide) (by decide)
    (by decide) (by decide)

/-- Counterexample to C5 as frozen: with two DIMMs in slots 0 and 2 and a
requested size of `2 ^ 63`, the 64-bit product `2 ^ 63 * 2` wraps to zero, so
the single group is allocated 0 rather than the exact truncated share
`2 ^ 63`, and the shortfall `2 ^ 63` far exceeds `group count - 1 = 0`;
moreover on an empty input with nonzero size the run succeeds with zero
groups, where the shortfall bound also fails. -/
theorem perform_share_bounds_cex :
    (PerformInterleavingAndCreateGoal [⟨0, 0, 0⟩, ⟨1, 0, 1⟩] (2 ^ 63) 7 =
        some (EfiStatus.Success, [⟨[⟨0, 0, 0⟩, ⟨1, 0, 1⟩], 2, 0, 7⟩]) ∧
      2 ^ 63 * 2 / 2 = 2 ^ 63 ∧ (0 : Nat) ≠ 2 ^ 63 ∧ ¬ ((2 : Nat) ^ 63 < 0 + 1)) ∧
    (PerformInterleavingAndCreateGoal ([] : List DIMM) 5 0 =
        some (EfiStatus.Success, []) ∧ ¬ ((5 : Nat) < 0 + 0)) := by
  refine ⟨⟨by decide, by norm_num, by positivity, by norm_num⟩, by decide, by norm_num⟩

/-- C10: the per-group capacity share is computed as
`(InterleaveSetSize * DimmsUsed) mod 2 ^ 64 / DimmsNum` with no overflow
guard.  When the product stays below `2 ^ 64` it equals the exact truncated
proportional share, and a wrapping input (size `2 ^ 63`, two DIMMs) yields
share 0 instead of the exact `2 ^ 63`. -/
theorem share_uint64_wrap :
    (∀ (pDimms : List DIMM) (InterleaveSetSize SequenceIndex : Nat) (gs : List RegionGoal),
      InterleaveSetSize * pDimms.length < 2 ^ 64 →
      PerformInterleavingAndCreateGoal pDimms InterleaveSetSize SequenceIndex =
        some (EfiStatus.Success, gs) →
      ∀ g ∈ gs, g.Size = InterleaveSetSize * g.pDimms.length / pDimms.length) ∧
    (PerformInterleavingAndCreateGoal [⟨0, 0, 0⟩, ⟨1, 0, 1⟩] (2 ^ 63) 0 =
        some (EfiStatus.Success, [⟨[⟨0, 0, 0⟩, ⟨1, 0, 1⟩], 2, 0, 0⟩]) ∧
      2 ^ 63 * 2 % 2 ^ 64 / 2 = 0 ∧ 2 ^ 63 * 2 / 2 = 2 ^ 63) := by
  constructor
  · intro pDimms sz sq gs hov h
    by_cases hsz : sz = 0
    · subst hsz
      rw [PerformInterleavingAndCreateGoal, if_pos rfl] at h
      have hnil := (Prod.mk.inj (Option.some.inj h)).2
      rw [← hnil]
      intro g hg
      simp at hg
    · intro g hg
      obtain ⟨hperm, hsum, hprops⟩ := perform_success_shape pDimms _ _ gs hsz h
      have hle : g.pDimms.length ≤ pDimms.length := perform_success_group_le hsz h g hg
      have hlt : sz * g.pDimms.length < 2 ^ 64 :=
        lt_of_le_of_lt (Nat.mul_le_mul_left _ hle) hov
      have := (hprops g hg).1
      rw [this]
      simp only [UINT64_MOD]
      rw [Nat.mod_eq_of_lt hlt]
  · exact ⟨by decide, by norm_num, by norm_num⟩

/-- Witness for C10 at concrete inputs. -/
theorem share_uint64_wrap_witness :
    ∀ g ∈ ([⟨[⟨0, 0, 0⟩], 1, 4, 0⟩] : List RegionGoal),
      g.Size = 4 * g.pDimms.length / ([⟨0, 0, 0⟩] : List DIMM).length :=
  share_uint64_wrap.1 [⟨0, 0, 0⟩] 4 0 [⟨[⟨0, 0, 0⟩], 1, 4, 0⟩] (by decide) (by decide)

end Interleave
